import Mathlib

/-! Verification development for the full-fidelity parsing core driven by
swift-syntax-test.cpp.  Source buffers are modelled as `List Char`.  The
driver file is the only code in the repository; the lexing, raw-tree,
position, parsing-cache and interchange-codec components it exercises are
modelled from the specification, as noted on each definition. -/

/-- Exit code for success, as in the driver (`EXIT_SUCCESS`). -/
def EXIT_SUCCESS : Nat := 0

/-- Exit code for failure, as in the driver (`EXIT_FAILURE`). -/
def EXIT_FAILURE : Nat := 1

/-- Modelled from the spec: a trivia piece is a tag (space, newline,
line-comment, block-comment, …) together with a repeat count or literal
text (spec section 3); the library type itself is not in the repository. -/
inductive TriviaPiece where
  | space (count : Nat)
  | tab (count : Nat)
  | newline (count : Nat)
  | carriageReturn (count : Nat)
  | lineComment (text : List Char)
  | blockComment (text : List Char)
  deriving DecidableEq, Repr

/-- Text of a single trivia piece. -/
def TriviaPiece.text : TriviaPiece → List Char
  | .space n => List.replicate n ' '
  | .tab n => List.replicate n '\t'
  | .newline n => List.replicate n '\n'
  | .carriageReturn n => List.replicate n '\r'
  | .lineComment t => t
  | .blockComment t => t

/-- Concatenated text of a trivia sequence. -/
def triviaListText (ps : List TriviaPiece) : List Char :=
  (ps.map TriviaPiece.text).flatten

/-- Modelled from the spec: a full-fidelity token holds a kind tag, core
text and leading/trailing trivia (spec section 3); the library token type
is not in the repository. -/
structure Token where
  kind : Nat
  leadingTrivia : List TriviaPiece
  text : List Char
  trailingTrivia : List TriviaPiece
  deriving DecidableEq, Repr

/-- Full printed text of a token: leading trivia, core text, trailing
trivia, in order. -/
def Token.fullText (t : Token) : List Char :=
  triviaListText t.leadingTrivia ++ t.text ++ triviaListText t.trailingTrivia

/-- Kind tag used for the end-of-file token. -/
def eofKind : Nat := 0

/-- Kind tag used for ordinary (non-eof) tokens in the model. -/
def plainTokenKind : Nat := 1

/-- Whether a buffer begins a comment (`//` or a block comment opener). -/
def startsComment : List Char → Bool
  | a :: b :: _ => a = '/' && (b = '/' || b = '*')
  | _ => false

/-- Whether a character terminates significant token text. -/
def isBreakChar (c : Char) : Bool :=
  c = ' ' || c = '\t' || c = '\n' || c = '\r'

/-- Whether a character is a line break. -/
def isLineBreak (c : Char) : Bool := c = '\n' || c = '\r'

/-- Scan a block comment body up to and including the closing delimiter
(or to end of input for an unterminated comment, whose classification the
spec delegates to the external lexer). -/
def blockScanAux : List Char → List Char × List Char
  | [] => ([], [])
  | '*' :: '/' :: rest => (['*', '/'], rest)
  | c :: rest =>
    let out := blockScanAux rest
    (c :: out.1, out.2)

/-- Run piece constructor for a whitespace character. -/
def runPiece (c : Char) (n : Nat) : TriviaPiece :=
  if c = ' ' then .space n
  else if c = '\t' then .tab n
  else if c = '\n' then .newline n
  else .carriageReturn n

/-- Modelled from the spec: trivia lexing consumes whitespace and comments
(spec section 4.1); with `stopAtLineBreak` it stops before the first line
break, the convention for trailing trivia.  `fuel` bounds recursion depth
and is always supplied strictly larger than the input length. -/
def lexTrivia (fuel : Nat) (stopAtLineBreak : Bool) (cs : List Char) :
    List TriviaPiece × List Char :=
  match fuel with
  | 0 => ([], cs)
  | fuel + 1 =>
    match cs with
    | '/' :: '/' :: rest =>
      let text := rest.takeWhile (fun x => !isLineBreak x)
      let out := lexTrivia fuel stopAtLineBreak (rest.dropWhile (fun x => !isLineBreak x))
      (.lineComment ('/' :: '/' :: text) :: out.1, out.2)
    | '/' :: '*' :: rest =>
      let b := blockScanAux rest
      let out := lexTrivia fuel stopAtLineBreak b.2
      (.blockComment ('/' :: '*' :: b.1) :: out.1, out.2)
    | c :: rest =>
      if c = ' ' || c = '\t' then
        let run := (c :: rest).takeWhile (fun x => x = c)
        let out := lexTrivia fuel stopAtLineBreak ((c :: rest).dropWhile (fun x => x = c))
        (runPiece c run.length :: out.1, out.2)
      else if isLineBreak c then
        if stopAtLineBreak then ([], c :: rest)
        else
          let run := (c :: rest).takeWhile (fun x => x = c)
          let out := lexTrivia fuel stopAtLineBreak ((c :: rest).dropWhile (fun x => x = c))
          (runPiece c run.length :: out.1, out.2)
      else ([], c :: rest)
    | [] => ([], [])

/-- Trivia lexing with always-sufficient fuel. -/
def lexTriviaF (stopAtLineBreak : Bool) (cs : List Char) :
    List TriviaPiece × List Char :=
  lexTrivia (cs.length + 1) stopAtLineBreak cs

/-- Scan the core (significant) text of a token: maximal run of characters
that are neither whitespace nor the start of a comment. -/
def coreScan : List Char → List Char × List Char
  | [] => ([], [])
  | c :: cs =>
    if isBreakChar c || startsComment (c :: cs) then ([], c :: cs)
    else
      let out := coreScan cs
      (c :: out.1, out.2)

@[simp] theorem triviaListText_nil : triviaListText [] = [] := rfl

@[simp] theorem triviaListText_cons (p : TriviaPiece) (ps : List TriviaPiece) :
    triviaListText (p :: ps) = p.text ++ triviaListText ps := by
  simp [triviaListText]

/-- Whether a buffer begins with trivia, in the given trailing mode. -/
def isTriviaHead (stop : Bool) (cs : List Char) : Bool :=
  match cs with
  | [] => false
  | c :: _ => c = ' ' || c = '\t' || (isLineBreak c && !stop) || startsComment cs

/-- Modelled from the spec: the external full-fidelity tokenizer, one token
per step: leading trivia, significant core text, trailing trivia up to the
first line break; at end of input a zero-width eof token carries the final
trivia (spec sections 4.1 and 6).  `fuel` bounds recursion depth. -/
def lexTokens (fuel : Nat) (cs : List Char) : List Token :=
  match fuel with
  | 0 => []
  | fuel + 1 =>
    let lead := lexTriviaF false cs
    match lead.2 with
    | [] => [{ kind := eofKind, leadingTrivia := lead.1, text := [],
               trailingTrivia := [] }]
    | c :: rest =>
      let core := coreScan (c :: rest)
      let trail := lexTriviaF true core.2
      { kind := plainTokenKind, leadingTrivia := lead.1, text := core.1,
        trailingTrivia := trail.1 } :: lexTokens fuel trail.2

/-- Modelled from the spec: `tokenizeWithTrivia` of the external lexer,
with always-sufficient fuel. -/
def tokenizeWithTrivia (source : List Char) : List Token :=
  lexTokens (source.length + 1) source

/-- Modelled from the spec: a raw node is a token, a layout node with an
ordered list of children, or a zero-width missing placeholder (spec
section 3); nodes are immutable values. -/
inductive RawNode where
  | token (kind : Nat) (leading : List TriviaPiece) (text : List Char)
      (trailing : List TriviaPiece)
  | layout (kind : Nat) (children : List RawNode)
  | missing (kind : Nat)

mutual

/-- Print a raw node: concatenate every reachable token's leading trivia,
core text and trailing trivia, in order (spec section 4.2). -/
def RawNode.print : RawNode → List Char
  | .token _ lead text trail => triviaListText lead ++ text ++ triviaListText trail
  | .layout _ children => RawNode.printList children
  | .missing _ => []

/-- Print a child list in order. -/
def RawNode.printList : List RawNode → List Char
  | [] => []
  | n :: ns => RawNode.print n ++ RawNode.printList ns

end

mutual

/-- Cached byte width of a raw node (spec section 3): for a token, the sum
of its trivia and text lengths; for a layout node, the sum of its
children's widths; zero for a missing placeholder. -/
def RawNode.width : RawNode → Nat
  | .token _ lead text trail =>
    (triviaListText lead).length + text.length + (triviaListText trail).length
  | .layout _ children => RawNode.widthList children
  | .missing _ => 0

/-- Total width of a child list. -/
def RawNode.widthList : List RawNode → Nat
  | [] => 0
  | n :: ns => RawNode.width n + RawNode.widthList ns

end

/-- View a lexed token as a raw token node. -/
def Token.toRaw (t : Token) : RawNode :=
  .token t.kind t.leadingTrivia t.text t.trailingTrivia

/-- Kind tag of the source-file layout node produced by a parse. -/
def sourceFileKind : Nat := 100

/-- Modelled from the spec: the external parser contract (spec section 6)
demands a tree whose leaf tokens exactly cover the input; the model parser
returns a single source-file layout node over the full-fidelity token
stream. -/
def parse (source : List Char) : RawNode :=
  .layout sourceFileKind ((tokenizeWithTrivia source).map Token.toRaw)

/-- The round-trip-parse action (`doFullParseRoundTrip`): parse the file
and print the syntax root. -/
def doFullParseRoundTrip (source : List Char) : List Char :=
  (parse source).print

/-- The round-trip-lex action (`doFullLexRoundTrip`): lex the file and
print every token in order. -/
def doFullLexRoundTrip (source : List Char) : List Char :=
  ((tokenizeWithTrivia source).map Token.fullText).flatten

/-- Modelled from the spec: an absolute position is a derived value (byte
offset, line, column) computed by accumulating widths and newline counts
from the start of the file (spec sections 3 and 4.3); lines and columns
start at 1. -/
structure AbsolutePosition where
  offset : Nat
  line : Nat
  column : Nat
  deriving DecidableEq, Repr

/-- Position of the start of a buffer. -/
def startPosition : AbsolutePosition := ⟨0, 1, 1⟩

/-- Advance a position across one character. -/
def AbsolutePosition.advance (p : AbsolutePosition) (c : Char) : AbsolutePosition :=
  if c = '\n' then ⟨p.offset + 1, p.line + 1, 1⟩
  else ⟨p.offset + 1, p.line, p.column + 1⟩

/-- Advance a position across a buffer. -/
def AbsolutePosition.advanceText (p : AbsolutePosition) (cs : List Char) :
    AbsolutePosition :=
  cs.foldl AbsolutePosition.advance p

/-- Modelled from the spec: the absolute position of the eof token of a
parsed source file, accumulated over the printed text (widths and newline
counts) of all preceding siblings (spec section 4.3). -/
def eofPosition (root : RawNode) : AbsolutePosition :=
  match root with
  | .layout _ children => startPosition.advanceText (RawNode.printList children.dropLast)
  | _ => startPosition

/-- Independent line computation directly on a buffer prefix: the number
of newlines seen plus one (the SourceManager's notion of line). -/
def lineOf (cs : List Char) : Nat := cs.count '\n' + 1

/-- Independent column computation directly on a buffer prefix: the
distance to the last newline plus one. -/
def columnOf (cs : List Char) : Nat :=
  (cs.reverse.takeWhile (fun c => !(c = '\n'))).length + 1

/-- Line and column of a byte offset, computed by scanning the buffer
directly (the SourceManager's getLineAndColumn). -/
def getLineAndColumn (source : List Char) (offset : Nat) : Nat × Nat :=
  (lineOf (source.take offset), columnOf (source.take offset))

/-- The eof action (`dumpEOFSourceLoc`): parse the file, compute the eof
token's absolute position by accumulation, compare with the line/column
the SourceManager computes for that offset, fail on disagreement, and
otherwise print the buffer from the start of the file to that position. -/
def dumpEOFSourceLoc (source : List Char) : Except (List Char) (List Char) :=
  let pos := eofPosition (parse source)
  if getLineAndColumn source pos.offset ≠ (pos.line, pos.column) then
    .error ("locations should be identical".toList)
  else
    .ok (source.take pos.offset)

/-- Modelled from the spec: the interchange encoding of a trivia piece, a
numeric tag with a repeat count and a literal text field (spec sections 3
and 4.5). -/
def encodeTrivia : TriviaPiece → Nat × Nat × List Char
  | .space n => (0, n, [])
  | .tab n => (1, n, [])
  | .newline n => (2, n, [])
  | .carriageReturn n => (3, n, [])
  | .lineComment t => (4, 0, t)
  | .blockComment t => (5, 0, t)

/-- Decode a trivia record; an unknown tag fails (MalformedDocument). -/
def decodeTrivia : Nat × Nat × List Char → Option TriviaPiece
  | (0, n, _) => some (.space n)
  | (1, n, _) => some (.tab n)
  | (2, n, _) => some (.newline n)
  | (3, n, _) => some (.carriageReturn n)
  | (4, _, t) => some (.lineComment t)
  | (5, _, t) => some (.blockComment t)
  | _ => none

/-- Modelled from the spec: the interchange document, a structured,
order-preserving encoding of a raw tree in which every node is a record
carrying its kind tag, its children in order (with explicit markers for
missing children) and its trivia (spec section 3). -/
inductive Doc where
  | tokenRec (kind : Nat) (leading : List (Nat × Nat × List Char)) (text : List Char)
      (trailing : List (Nat × Nat × List Char))
  | layoutRec (kind : Nat) (children : List Doc)
  | missingRec (kind : Nat)

mutual

/-- Modelled from the spec: serialize a raw node to an interchange record
(spec section 4.5). -/
def serializeNode : RawNode → Doc
  | .token k lead text trail =>
    .tokenRec k (lead.map encodeTrivia) text (trail.map encodeTrivia)
  | .layout k children => .layoutRec k (serializeList children)
  | .missing k => .missingRec k

/-- Serialize a child list in order. -/
def serializeList : List RawNode → List Doc
  | [] => []
  | n :: ns => serializeNode n :: serializeList ns

end

/-- Decode a list of trivia records, failing if any record fails. -/
def decodeTriviaList : List (Nat × Nat × List Char) → Option (List TriviaPiece)
  | [] => some []
  | r :: rs =>
    match decodeTrivia r, decodeTriviaList rs with
    | some p, some ps => some (p :: ps)
    | _, _ => none

mutual

/-- Modelled from the spec: decode an interchange document back into a raw
node; a record with an unknown tag fails with no partial tree (spec
section 4.5, MalformedDocument). -/
def deserializeNode : Doc → Option RawNode
  | .tokenRec k lead text trail =>
    match decodeTriviaList lead, decodeTriviaList trail with
    | some l, some t => some (.token k l text t)
    | _, _ => none
  | .layoutRec k children =>
    match deserializeList children with
    | some cs => some (.layout k cs)
    | none => none
  | .missingRec k => some (.missing k)

/-- Decode a list of child documents, failing if any child fails. -/
def deserializeList : List Doc → Option (List RawNode)
  | [] => some []
  | d :: ds =>
    match deserializeNode d, deserializeList ds with
    | some n, some ns => some (n :: ns)
    | _, _ => none

end

/-- The serialize-raw-tree action (`doSerializeRawTree`): parse the file
and serialize the raw tree of its root. -/
def doSerializeRawTree (source : List Char) : Doc :=
  serializeNode (parse source)

/-- The deserialize-raw-tree action (`doDeserializeRawTree`): decode an
interchange document and print the tree it describes.  The driver performs
no failure check before dereferencing the decoded tree, so an undecodable
document leaves it with no defined result (modelled as `none`); a decoded
tree is printed and the action reports success. -/
def doDeserializeRawTree (doc : Doc) : Option (List Char × Nat) :=
  (deserializeNode doc).map (fun t => (t.print, EXIT_SUCCESS))

/-- Modelled from the spec: an edit replaces the old-source byte range
[start, endOff) with replacement text (spec section 3); the parsing cache
itself records only the replacement length. -/
structure Edit where
  start : Nat
  endOff : Nat
  replacement : List Char
  deriving DecidableEq, Repr

/-- Edits given in increasing old-offset order and pairwise disjoint, the
well-formedness the spec assumes (spec section 9). -/
def editsOrdered (edits : List Edit) : Prop :=
  List.Pairwise (fun e e' => e.endOff ≤ e'.start) edits

/-- Apply one edit to a buffer. -/
def applyEdit (s : List Char) (e : Edit) : List Char :=
  s.take e.start ++ e.replacement ++ s.drop e.endOff

/-- Apply an increasing-offset edit sequence to a buffer, rightmost edit
first so that earlier offsets stay valid. -/
def applyEdits (s : List Char) (edits : List Edit) : List Char :=
  edits.foldr (fun e acc => applyEdit acc e) s

/-- Total replacement length of the edits ending at or before `o`. -/
def insertedBefore (edits : List Edit) (o : Nat) : Nat :=
  ((edits.filter (fun e => e.endOff ≤ o)).map (fun e => e.replacement.length)).sum

/-- Total deleted length of the edits ending at or before `o`. -/
def deletedBefore (edits : List Edit) (o : Nat) : Nat :=
  ((edits.filter (fun e => e.endOff ≤ o)).map (fun e => e.endOff - e.start)).sum

/-- Modelled from the spec: translate an old-buffer offset into the new
buffer by the running delta of every edit processed before it (spec
section 4.4). -/
def newPos (edits : List Edit) (o : Nat) : Nat :=
  o + insertedBefore edits o - deletedBefore edits o

/-- Byte slice [a, b) of a buffer. -/
def extract (s : List Char) (a b : Nat) : List Char :=
  (s.drop a).take (b - a)

/-- Shift of a new-buffer position beyond the leftmost edit once that edit
is applied in front of it. -/
def shiftPos (e : Edit) (p : Nat) : Nat :=
  e.start + e.replacement.length + (p - e.endOff)

/-- New-buffer byte ranges occupied by the replacement texts of the edits:
the leftmost edit's replacement lands at its own start offset, and every
later landing is shifted by the leftmost edit's delta. -/
def editLandings : List Edit → List (Nat × Nat)
  | [] => []
  | e :: rest =>
    (e.start, e.start + e.replacement.length) ::
      (editLandings rest).map (fun r => (shiftPos e r.1, shiftPos e r.2))

/-- Whether an edit leaves the old byte range [lo, hi) untouched: the
edit's old range lies entirely before or entirely after it. -/
def Edit.untouches (e : Edit) (lo hi : Nat) : Bool :=
  decide (hi ≤ e.start) || decide (e.endOff ≤ lo)

/-- Whether the old byte range [lo, hi) is untouched by every edit. -/
def rangeUntouched (edits : List Edit) (lo hi : Nat) : Bool :=
  edits.all (fun e => e.untouches lo hi)

mutual

/-- Modelled from the spec: depth-first reuse-range resolution over the
old tree (spec section 4.4).  A node whose full old span is untouched by
every edit is recorded as one range and recursion is skipped (coarsest
granularity wins); otherwise recursion continues into children to find
smaller reusable subtrees; tokens are the finest granularity and
zero-width nodes yield no range.  Ranges are collected here in old
coordinates. -/
def collectReuseOld (edits : List Edit) (lo : Nat) : RawNode → List (Nat × Nat)
  | .token k lead text trail =>
    if rangeUntouched edits lo (lo + (RawNode.token k lead text trail).width) &&
        decide (0 < (RawNode.token k lead text trail).width) then
      [(lo, lo + (RawNode.token k lead text trail).width)]
    else []
  | .layout k children =>
    if rangeUntouched edits lo (lo + (RawNode.layout k children).width) &&
        decide (0 < (RawNode.layout k children).width) then
      [(lo, lo + (RawNode.layout k children).width)]
    else collectReuseOldList edits lo children
  | .missing _ => []

/-- Resolution over a child list, advancing the running old offset by each
child's width. -/
def collectReuseOldList (edits : List Edit) (lo : Nat) : List RawNode → List (Nat × Nat)
  | [] => []
  | n :: ns =>
    collectReuseOld edits lo n ++ collectReuseOldList edits (lo + n.width) ns

end

/-- Modelled from the spec: the parsing cache wraps one old tree and the
pending edit journal (spec section 3). -/
structure ParsingCache where
  oldTree : RawNode
  edits : List Edit

/-- addEdit appends an edit to the journal in declared order. -/
def ParsingCache.addEdit (c : ParsingCache) (start endOff : Nat)
    (replacement : List Char) : ParsingCache :=
  { c with edits := c.edits ++ [⟨start, endOff, replacement⟩] }

/-- Modelled from the spec: the reuse ranges in new-buffer coordinates,
each untouched old span translated by the running delta of the edits
before it (spec section 4.4). -/
def ParsingCache.getReusedRanges (c : ParsingCache) : List (Nat × Nat) :=
  (collectReuseOld c.edits 0 c.oldTree).map
    (fun r => (newPos c.edits r.1, newPos c.edits r.1 + (r.2 - r.1)))

/-- Whether a character is an ASCII digit. -/
def isDigitChar (c : Char) : Bool := '0' ≤ c && c ≤ '9'

/-- Numeric value of a digit run. -/
def digitsToNat (ds : List Char) : Nat :=
  ds.foldl (fun acc c => acc * 10 + (c.toNat - '0'.toNat)) 0

/-- Parse a maximal nonempty digit run (the regex atom [0-9]+), returning
its value and the remainder. -/
def parseNatRun (cs : List Char) : Option (Nat × List Char) :=
  match cs.takeWhile isDigitChar with
  | [] => none
  | run => some (digitsToNat run, cs.dropWhile isDigitChar)

/-- Expect one literal character. -/
def expectChar (c : Char) : List Char → Option (List Char)
  | d :: rest => if d = c then some rest else none
  | [] => none

/-- Match the edit regex
([0-9]+):([0-9]+)-([0-9]+):([0-9]+)=(.*)
at the start of the buffer, returning the four numbers and the
replacement text. -/
def matchEditAt (cs : List Char) : Option (Nat × Nat × Nat × Nat × List Char) :=
  (parseNatRun cs).bind fun p₁ =>
  (expectChar ':' p₁.2).bind fun cs₂ =>
  (parseNatRun cs₂).bind fun p₂ =>
  (expectChar '-' p₂.2).bind fun cs₄ =>
  (parseNatRun cs₄).bind fun p₃ =>
  (expectChar ':' p₃.2).bind fun cs₆ =>
  (parseNatRun cs₆).bind fun p₄ =>
  (expectChar '=' p₄.2).bind fun cs₈ =>
  some (p₁.1, p₂.1, p₃.1, p₄.1, cs₈)

/-- Unanchored regex search, as llvm::Regex::match performs: try every
start position from the left. -/
def matchEditPattern : List Char → Option (Nat × Nat × Nat × Nat × List Char)
  | [] => matchEditAt []
  | c :: rest =>
    match matchEditAt (c :: rest) with
    | some r => some r
    | none => matchEditPattern rest

/-- Modelled from the spec: the SourceManager's byte offset of the start
of a (1-based) line: the position just after the (line-1)-th newline. -/
def lineStartAux (cs : List Char) (lines acc : Nat) : Nat :=
  match lines, cs with
  | 0, _ => acc
  | _ + 1, [] => acc
  | n + 1, c :: rest =>
    if c = '\n' then lineStartAux rest n (acc + 1)
    else lineStartAux rest (n + 1) (acc + 1)

/-- Modelled from the spec: the SourceManager's getLocForLineCol followed
by getLocOffsetInBuffer, resolving a line/column pair to a byte offset. -/
def getLocForLineCol (S : List Char) (line col : Nat) : Nat :=
  lineStartAux S (line - 1) 0 + (col - 1)

/-- The driver's parseIncrementalEditArguments: match each edit argument
against the edit regex, resolve the line/column pairs to byte offsets, and
record the edit with its replacement; any argument that does not match the
pattern makes the whole parse fail (the C++ returns false). -/
def parseIncrementalEditArguments (S : List Char) :
    List (List Char) → Option (List Edit)
  | [] => some []
  | p :: ps =>
    match matchEditPattern p with
    | none => none
    | some (sl, sc, el, ec, rep) =>
      match parseIncrementalEditArguments S ps with
      | none => none
      | some es =>
        some (⟨getLocForLineCol S sl sc, getLocForLineCol S el ec, rep⟩ :: es)

/-- The driver's parseFile: deserialize the old syntax tree when one is
given (failing the action when it cannot be decoded), then parse the edit
arguments (failing the action on an invalid pattern — the C++ returns
EXIT_FAILURE before any parse), and only then parse the input file. -/
def parseFile (oldDoc : Option Doc) (editPatterns : List (List Char))
    (source : List Char) : Except (List Char) (RawNode × Option ParsingCache) :=
  match oldDoc with
  | some doc =>
    match deserializeNode doc with
    | none => .error ("Could not deserialise old syntax tree.".toList)
    | some oldTree =>
      match parseIncrementalEditArguments source editPatterns with
      | none => .error ("Invalid edit pattern".toList)
      | some es => .ok (parse source, some ⟨oldTree, es⟩)
  | none => .ok (parse source, none)

/-- The round-trip-lex action at the file level: an unreadable file (none)
is diagnosed and fails; otherwise the tokens are printed and the action
succeeds (doFullLexRoundTrip in the driver). -/
def doFullLexRoundTripFile (file : Option (List Char)) : Nat :=
  match file with
  | none => EXIT_FAILURE
  | some _ => EXIT_SUCCESS

/-- Single-file invocation: main returns the action's exit code. -/
def mainSingle (file : Option (List Char)) : Nat :=
  doFullLexRoundTripFile file

/-- Batch invocation over a directory: the driver's loop runs the action
on every file and assigns the result to the one ExitCode variable each
iteration, overwriting the previous value. -/
def mainBatch (files : List (Option (List Char))) : Nat :=
  files.foldl (fun _ f => doFullLexRoundTripFile f) EXIT_SUCCESS

/-- Unsigned 32-bit subtraction, as the C++ computes range lengths; the
operands in the driver are always below 2^32. -/
def usub32 (a b : Nat) : Nat := if b ≤ a then a - b else a + 2 ^ 32 - b

/-- Opening marker printed around a reparsed region when the stream has no
colors. -/
def reparseOpenMarker : List Char := "<reparse>".toList

/-- Closing marker printed around a reparsed region. -/
def reparseCloseMarker : List Char := "</reparse>".toList

/-- The driver's PrintReparsedRegion: when the two offsets differ, print
the clamped substring between them wrapped in the reparse markers. -/
def printReparsedRegion (S : List Char) (a b : Nat) : List Char :=
  if b ≠ a then
    reparseOpenMarker ++ (S.drop a).take (usub32 b a) ++ reparseCloseMarker
  else []

/-- The driver's visual reuse loop: for each reuse range print the region
not reused since the current offset, then the reused range verbatim, and
move the current offset to the range's end; finally print the region up to
the end of the buffer and a newline. -/
def renderVisualAux (S : List Char) (cur : Nat) : List (Nat × Nat) → List Char
  | [] => printReparsedRegion S cur S.length ++ ['\n']
  | r :: rs =>
    printReparsedRegion S cur r.1 ++ (S.drop r.1).take (usub32 r.2 r.1) ++
      renderVisualAux S r.2 rs

/-- The driver's printVisualNodeReuseInformation (colorless branch). -/
def printVisualNodeReuseInformation (S : List Char) (ranges : List (Nat × Nat)) :
    List Char :=
  renderVisualAux S 0 ranges

/-- A gap as the claim describes it: printed wrapped in reparse markers
only when it is non-empty. -/
def claimGap (S : List Char) (a b : Nat) : List Char :=
  if (S.drop a).take (b - a) = [] then []
  else reparseOpenMarker ++ (S.drop a).take (b - a) ++ reparseCloseMarker

/-- The rendering exactly as the claim describes it: bytes inside reuse
ranges verbatim, every maximal gap wrapped in markers only when
non-empty. -/
def claimVisualAux (S : List Char) (cur : Nat) : List (Nat × Nat) → List Char
  | [] => claimGap S cur S.length ++ ['\n']
  | r :: rs =>
    claimGap S cur r.1 ++ (S.drop r.1).take (r.2 - r.1) ++ claimVisualAux S r.2 rs

/-- Claim-side rendering of the whole buffer. -/
def claimVisual (S : List Char) (ranges : List (Nat × Nat)) : List Char :=
  claimVisualAux S 0 ranges

/-- The byte content of the rendering with the markers removed: gap bytes
and reused bytes in order. -/
def visualBytesAux (S : List Char) (cur : Nat) : List (Nat × Nat) → List Char
  | [] => (S.drop cur).take (S.length - cur)
  | r :: rs =>
    (S.drop cur).take (r.1 - cur) ++ (S.drop r.1).take (r.2 - r.1) ++
      visualBytesAux S r.2 rs

/-- Marker-free byte content of the rendering. -/
def visualBytes (S : List Char) (ranges : List (Nat × Nat)) : List Char :=
  visualBytesAux S 0 ranges

/-! Theorems about the model. -/

theorem blockScanAux_append (cs : List Char) :
    (blockScanAux cs).1 ++ (blockScanAux cs).2 = cs := by
  induction cs using blockScanAux.induct <;> simp [blockScanAux, *]

theorem runPiece_text (c : Char) (n : Nat) (h : isBreakChar c = true) :
    (runPiece c n).text = List.replicate n c := by
  simp only [isBreakChar, Bool.or_eq_true, decide_eq_true_eq] at h
  rcases h with ((rfl | rfl) | rfl) | rfl <;>
    simp [runPiece, TriviaPiece.text]

theorem coreScan_append (cs : List Char) :
    (coreScan cs).1 ++ (coreScan cs).2 = cs := by
  induction cs with
  | nil => rfl
  | cons c cs ih =>
    simp only [coreScan]
    split
    · rfl
    · simpa using ih

theorem takeWhile_eq_replicate (c : Char) (cs : List Char) :
    cs.takeWhile (fun x => x = c) =
      List.replicate (cs.takeWhile (fun x => x = c)).length c := by
  apply List.eq_replicate_of_mem
  intro b hb
  simpa using List.mem_takeWhile_imp hb

theorem lexTrivia_append (fuel : Nat) (stop : Bool) (cs : List Char) :
    triviaListText (lexTrivia fuel stop cs).1 ++ (lexTrivia fuel stop cs).2 = cs := by
  induction fuel, stop, cs using lexTrivia.induct with
  | case1 stop cs => simp [lexTrivia]
  | case2 stop fuel rest ih =>
    simp only [lexTrivia, triviaListText_cons, TriviaPiece.text]
    rw [List.cons_append, List.cons_append, List.append_assoc, ih]
    simp [List.takeWhile_append_dropWhile]
  | case3 stop fuel rest b ih =>
    simp only [lexTrivia, triviaListText_cons, TriviaPiece.text]
    rw [List.cons_append, List.cons_append, List.append_assoc, ih]
    exact congrArg (fun x => '/' :: '*' :: x) (blockScanAux_append rest)
  | case4 stop fuel c rest h1 h2 hcond ih =>
    have hc : isBreakChar c = true := by
      simp only [Bool.or_eq_true, decide_eq_true_eq] at hcond
      rcases hcond with rfl | rfl <;> rfl
    simp only [lexTrivia, if_pos hcond, triviaListText_cons]
    rw [runPiece_text c _ hc, ← takeWhile_eq_replicate, List.append_assoc, ih,
      List.takeWhile_append_dropWhile]
  | case5 fuel c rest h1 h2 hcond hbrk =>
    simp [lexTrivia, hcond, hbrk]
  | case6 stop fuel c rest h1 h2 hcond hbrk hstop ih =>
    have hc : isBreakChar c = true := by
      simp only [isLineBreak, Bool.or_eq_true, decide_eq_true_eq] at hbrk
      rcases hbrk with rfl | rfl <;> rfl
    simp only [lexTrivia, if_neg hcond, if_pos hbrk, if_neg hstop, triviaListText_cons]
    rw [runPiece_text c _ hc, ← takeWhile_eq_replicate, List.append_assoc, ih,
      List.takeWhile_append_dropWhile]
  | case7 stop fuel c rest h1 h2 hcond hbrk =>
    simp [lexTrivia, hcond, hbrk]
  | case8 stop fuel => simp [lexTrivia]

theorem length_dropWhile_le' {α : Type} (p : α → Bool) (l : List α) :
    (l.dropWhile p).length ≤ l.length := by
  induction l with
  | nil => simp
  | cons a l ih =>
    by_cases h : p a
    · simp only [List.dropWhile_cons, h, if_true, List.length_cons]
      omega
    · simp [List.dropWhile_cons, h]

theorem startsComment_false_of (c : Char) (rest : List Char)
    (h1 : ∀ r : List Char, c = '/' → rest = '/' :: r → False)
    (h2 : ∀ r : List Char, c = '/' → rest = '*' :: r → False) :
    startsComment (c :: rest) = false := by
  cases rest with
  | nil => rfl
  | cons d r =>
    by_cases hc : c = '/'
    · by_cases hd : d = '/'
      · exact absurd (h1 r hc (by rw [hd])) (by simp)
      · by_cases hd2 : d = '*'
        · exact absurd (h2 r hc (by rw [hd2])) (by simp)
        · simp [startsComment, hd, hd2]
    · simp [startsComment, hc]

theorem lexTrivia_rest (fuel : Nat) (stop : Bool) (cs : List Char)
    (h : cs.length < fuel) :
    isTriviaHead stop (lexTrivia fuel stop cs).2 = false := by
  induction fuel, stop, cs using lexTrivia.induct with
  | case1 stop cs => exact absurd h (Nat.not_lt_zero _)
  | case2 stop fuel rest ih =>
    simp only [lexTrivia]
    apply ih
    have := length_dropWhile_le' (fun x => !isLineBreak x) rest
    simp only [List.length_cons] at h
    omega
  | case3 stop fuel rest b ih =>
    simp only [lexTrivia]
    apply ih
    show (blockScanAux rest).2.length < fuel
    have := congrArg List.length (blockScanAux_append rest)
    simp only [List.length_append, List.length_cons] at this h
    omega
  | case4 stop fuel c rest h1 h2 hcond ih =>
    simp only [lexTrivia, if_pos hcond]
    apply ih
    have h3 : List.dropWhile (fun x => decide (x = c)) (c :: rest) =
        List.dropWhile (fun x => decide (x = c)) rest :=
      List.dropWhile_cons_of_pos (by simp)
    have := length_dropWhile_le' (fun x => decide (x = c)) rest
    simp only [List.length_cons] at h
    rw [h3]
    omega
  | case5 fuel c rest h1 h2 hcond hbrk =>
    simp only [lexTrivia, if_neg hcond, if_pos hbrk, if_pos rfl]
    simp only [isTriviaHead, Bool.or_eq_true, decide_eq_true_eq] at hcond ⊢
    simp [startsComment_false_of c rest h1 h2, hbrk]
    exact ⟨fun hx => hcond (Or.inl hx), fun hx => hcond (Or.inr hx)⟩
  | case6 stop fuel c rest h1 h2 hcond hbrk hstop ih =>
    simp only [lexTrivia, if_neg hcond, if_pos hbrk, if_neg hstop]
    apply ih
    have h3 : List.dropWhile (fun x => decide (x = c)) (c :: rest) =
        List.dropWhile (fun x => decide (x = c)) rest :=
      List.dropWhile_cons_of_pos (by simp)
    have := length_dropWhile_le' (fun x => decide (x = c)) rest
    simp only [List.length_cons] at h
    rw [h3]
    omega
  | case7 stop fuel c rest h1 h2 hcond hbrk =>
    simp only [lexTrivia, if_neg hcond, if_neg hbrk]
    simp only [isTriviaHead, Bool.or_eq_true, decide_eq_true_eq] at hcond ⊢
    simp [startsComment_false_of c rest h1 h2, hbrk]
    exact ⟨fun hx => hcond (Or.inl hx), fun hx => hcond (Or.inr hx)⟩
  | case8 stop fuel => simp [lexTrivia, isTriviaHead]

theorem lexTriviaF_append (stop : Bool) (cs : List Char) :
    triviaListText (lexTriviaF stop cs).1 ++ (lexTriviaF stop cs).2 = cs :=
  lexTrivia_append _ _ _

theorem lexTriviaF_rest (stop : Bool) (cs : List Char) :
    isTriviaHead stop (lexTriviaF stop cs).2 = false :=
  lexTrivia_rest _ _ _ (Nat.lt_succ_self _)

theorem coreScan_fst_ne_nil (c : Char) (rest : List Char)
    (h : isTriviaHead false (c :: rest) = false) :
    (coreScan (c :: rest)).1 ≠ [] := by
  simp only [isTriviaHead, Bool.or_eq_false_iff, Bool.and_eq_false_iff,
    decide_eq_false_iff_not, Bool.not_eq_false] at h
  obtain ⟨⟨⟨hsp, htab⟩, hlb⟩, hsc⟩ := h
  have hb : isBreakChar c = false := by
    simp only [isLineBreak] at hlb
    rcases hlb with hlb | hlb
    · simp only [Bool.or_eq_false_iff, decide_eq_false_iff_not] at hlb
      simp [isBreakChar, hsp, htab, hlb.1, hlb.2]
    · simp at hlb
  simp [coreScan, hb, hsc]

theorem lexTokens_flatten (fuel : Nat) (cs : List Char) (h : cs.length < fuel) :
    ((lexTokens fuel cs).map Token.fullText).flatten = cs := by
  induction fuel generalizing cs with
  | zero => exact absurd h (Nat.not_lt_zero _)
  | succ fuel ih =>
    have hlead := lexTriviaF_append false cs
    rcases hrest : (lexTriviaF false cs).2 with _ | ⟨c, rest⟩
    · rw [hrest] at hlead
      simp only [lexTokens, hrest, List.map_cons, List.map_nil, List.flatten_cons,
        List.flatten_nil, List.append_nil, Token.fullText, triviaListText_nil]
      rw [List.append_nil] at hlead
      exact hlead
    · rw [hrest] at hlead
      have hne : (coreScan (c :: rest)).1 ≠ [] :=
        coreScan_fst_ne_nil c rest (by rw [← hrest]; exact lexTriviaF_rest false cs)
      have hcore := coreScan_append (c :: rest)
      have htrail := lexTriviaF_append true (coreScan (c :: rest)).2
      have hlen1 := congrArg List.length hlead
      have hlen2 := congrArg List.length hcore
      have hlen3 := congrArg List.length htrail
      simp only [List.length_append, List.length_cons] at hlen1 hlen2 hlen3
      have hpos : 0 < (coreScan (c :: rest)).1.length := List.length_pos.mpr hne
      have hrec : (lexTriviaF true (coreScan (c :: rest)).2).2.length < fuel := by
        omega
      simp only [lexTokens, hrest, List.map_cons, List.flatten_cons]
      rw [ih _ hrec]
      simp only [Token.fullText, List.append_assoc]
      rw [htrail, hcore]
      exact hlead

mutual

/-- Width consistency invariant of spec section 3: the cached width of any
node equals the length of its printed text. -/
theorem RawNode.width_eq_print_length :
    ∀ n : RawNode, n.width = n.print.length
  | .token _ lead text trail => by
    simp only [RawNode.width, RawNode.print, List.length_append]
  | .layout _ children => by
    simp [RawNode.width, RawNode.print, RawNode.widthList_eq_printList_length children]
  | .missing _ => rfl

/-- Width consistency for child lists. -/
theorem RawNode.widthList_eq_printList_length :
    ∀ ns : List RawNode, RawNode.widthList ns = (RawNode.printList ns).length
  | [] => rfl
  | n :: ns => by
    simp [RawNode.widthList, RawNode.printList, RawNode.width_eq_print_length n,
      RawNode.widthList_eq_printList_length ns]

end

theorem printList_map_toRaw (ts : List Token) :
    RawNode.printList (ts.map Token.toRaw) = (ts.map Token.fullText).flatten := by
  induction ts with
  | nil => rfl
  | cons t ts ih =>
    simp [RawNode.printList, RawNode.print, Token.toRaw, Token.fullText, ih]

/-- Core round-trip helper: printing a freshly parsed tree reproduces the
input bytes. -/
theorem parse_print (source : List Char) : (parse source).print = source := by
  rw [parse, RawNode.print, printList_map_toRaw]
  exact lexTokens_flatten _ _ (Nat.lt_succ_self _)

/-- C1: for every source buffer, parsing and printing the resulting tree
reproduces the buffer byte for byte: the round-trip-parse action's output
equals the exact input. -/
theorem c1_parse_round_trip (source : List Char) :
    doFullParseRoundTrip source = source :=
  parse_print source

/-- C2: tokenizing any buffer with trivia yields tokens whose printed
texts (leading trivia, core text, trailing trivia) concatenate, in order,
to exactly the input, with no gaps or overlaps; hence the round-trip-lex
action's output equals the input bytes. -/
theorem c2_lex_round_trip (source : List Char) :
    ((tokenizeWithTrivia source).map Token.fullText).flatten = source ∧
      doFullLexRoundTrip source = source :=
  ⟨lexTokens_flatten _ _ (Nat.lt_succ_self _),
   lexTokens_flatten _ _ (Nat.lt_succ_self _)⟩

theorem advanceText_offset (p : AbsolutePosition) (cs : List Char) :
    (p.advanceText cs).offset = p.offset + cs.length := by
  induction cs generalizing p with
  | nil => simp [AbsolutePosition.advanceText]
  | cons c cs ih =>
    show ((p.advance c).advanceText cs).offset = _
    rw [ih]
    by_cases h : c = '\n' <;> simp [AbsolutePosition.advance, h] <;> omega

theorem advanceText_line (p : AbsolutePosition) (cs : List Char) :
    (p.advanceText cs).line = p.line + cs.count '\n' := by
  induction cs generalizing p with
  | nil => simp [AbsolutePosition.advanceText]
  | cons c cs ih =>
    show ((p.advance c).advanceText cs).line = _
    rw [ih]
    by_cases h : c = '\n' <;>
      (simp [AbsolutePosition.advance, h, List.count_cons]; try omega)

theorem takeWhile_append_of_not_all {α : Type} (p : α → Bool) (l l' : List α)
    (h : ¬ ∀ x ∈ l, p x = true) :
    (l ++ l').takeWhile p = l.takeWhile p := by
  induction l with
  | nil => exact absurd (by simp) h
  | cons a l ih =>
    by_cases ha : p a
    · have : ¬ ∀ x ∈ l, p x = true := by
        intro hall
        exact h (by simpa [ha] using hall)
      simp [List.takeWhile_cons, ha, ih this]
    · simp [List.takeWhile_cons, ha]

theorem takeWhile_of_all {α : Type} (p : α → Bool) (l : List α)
    (h : ∀ x ∈ l, p x = true) : l.takeWhile p = l := by
  induction l with
  | nil => rfl
  | cons a l ih =>
    have ha := h a (by simp)
    simp [List.takeWhile_cons, ha, ih (fun x hx => h x (by simp [hx]))]

theorem takeWhile_append_of_all {α : Type} (p : α → Bool) (l l' : List α)
    (h : ∀ x ∈ l, p x = true) :
    (l ++ l').takeWhile p = l ++ l'.takeWhile p := by
  induction l with
  | nil => simp
  | cons a l ih =>
    have ha := h a (by simp)
    simp [List.takeWhile_cons, ha, ih (fun x hx => h x (by simp [hx]))]

theorem not_all_reverse_of_count (cs : List Char) (h0 : cs.count '\n' ≠ 0) :
    ¬ ∀ x ∈ cs.reverse, (!decide (x = '\n')) = true := by
  intro hall
  have hmem : '\n' ∈ cs := by
    by_contra hnm
    exact h0 (List.count_eq_zero.mpr hnm)
  have := hall '\n' (List.mem_reverse.mpr hmem)
  simp at this

theorem all_reverse_of_count (cs : List Char) (h0 : cs.count '\n' = 0) :
    ∀ x ∈ cs.reverse, (!decide (x = '\n')) = true := by
  intro x hx
  have hmem : x ∈ cs := List.mem_reverse.mp hx
  have hne : x ≠ '\n' := by
    intro hxe
    subst hxe
    have := List.count_pos_iff.mpr hmem
    omega
  simp [hne]

theorem advanceText_column (p : AbsolutePosition) (cs : List Char) :
    (p.advanceText cs).column =
      if cs.count '\n' = 0 then p.column + cs.length else columnOf cs := by
  induction cs generalizing p with
  | nil => simp [AbsolutePosition.advanceText]
  | cons c cs ih =>
    show ((p.advance c).advanceText cs).column = _
    rw [ih]
    by_cases h : c = '\n'
    · subst h
      have hadv : p.advance '\n' = ⟨p.offset + 1, p.line + 1, 1⟩ := by
        simp [AbsolutePosition.advance]
      have hcount : List.count '\n' ('\n' :: cs) = List.count '\n' cs + 1 := by
        simp [List.count_cons]
      rw [hadv, hcount, if_neg (show ¬(List.count '\n' cs + 1 = 0) by omega)]
      by_cases h0 : List.count '\n' cs = 0
      · rw [if_pos h0]
        simp only [columnOf, List.reverse_cons]
        rw [takeWhile_append_of_all _ _ _ (all_reverse_of_count cs h0)]
        simp [List.takeWhile_cons]
        omega
      · rw [if_neg h0]
        simp only [columnOf, List.reverse_cons]
        rw [takeWhile_append_of_not_all _ _ _ (not_all_reverse_of_count cs h0)]
    · have hadv : p.advance c = ⟨p.offset + 1, p.line, p.column + 1⟩ := by
        simp [AbsolutePosition.advance, h]
      have hcount : List.count '\n' (c :: cs) = List.count '\n' cs := by
        simp [List.count_cons, h]
      rw [hadv, hcount]
      by_cases h0 : List.count '\n' cs = 0
      · rw [if_pos h0, if_pos h0]
        simp only [List.length_cons]
        omega
      · rw [if_neg h0, if_neg h0]
        simp only [columnOf, List.reverse_cons]
        rw [takeWhile_append_of_not_all _ _ _ (not_all_reverse_of_count cs h0)]

theorem columnOf_of_count_zero (cs : List Char) (h0 : cs.count '\n' = 0) :
    columnOf cs = cs.length + 1 := by
  simp only [columnOf]
  rw [takeWhile_of_all _ _ (all_reverse_of_count cs h0)]
  simp

theorem printList_dropLast_front (ns : List RawNode) :
    ∃ t, RawNode.printList ns = RawNode.printList ns.dropLast ++ t := by
  induction ns with
  | nil => exact ⟨[], rfl⟩
  | cons n ns ih =>
    cases ns with
    | nil => exact ⟨n.print, by simp [RawNode.printList]⟩
    | cons m ms =>
      obtain ⟨t, ht⟩ := ih
      refine ⟨t, ?_⟩
      rw [List.dropLast_cons_of_ne_nil (by simp)]
      show RawNode.print n ++ RawNode.printList (m :: ms) = _
      rw [ht]
      simp [RawNode.printList]

theorem startPosition_advance_line (cs : List Char) :
    (startPosition.advanceText cs).line = lineOf cs := by
  rw [advanceText_line]
  simp only [startPosition, lineOf]
  omega

theorem startPosition_advance_column (cs : List Char) :
    (startPosition.advanceText cs).column = columnOf cs := by
  rw [advanceText_column]
  by_cases h0 : cs.count '\n' = 0
  · rw [if_pos h0, columnOf_of_count_zero cs h0]
    simp only [startPosition]
    omega
  · rw [if_neg h0]

/-- C4: the eof token's absolute position, accumulated over the widths of
all preceding siblings of the parsed tree, agrees exactly with the
line/column the SourceManager computes directly from the source buffer at
that offset; the eof action therefore never reports a mismatch and prints
the buffer from the start of the file to the eof token's position. -/
theorem c4_eof_position_agreement (source : List Char) :
    getLineAndColumn source (eofPosition (parse source)).offset =
      ((eofPosition (parse source)).line, (eofPosition (parse source)).column) ∧
      dumpEOFSourceLoc source =
        Except.ok (source.take (eofPosition (parse source)).offset) := by
  have hsrc0 := parse_print source
  rw [parse, RawNode.print] at hsrc0
  have hpos : eofPosition (parse source) =
      startPosition.advanceText
        (RawNode.printList (((tokenizeWithTrivia source).map Token.toRaw)).dropLast) := by
    rw [parse, eofPosition]
  generalize hg : (tokenizeWithTrivia source).map Token.toRaw = ch at hsrc0 hpos
  obtain ⟨t, hsplit⟩ := printList_dropLast_front ch
  have hcat : RawNode.printList ch.dropLast ++ t = source := by
    rw [← hsplit]
    exact hsrc0
  have hoff : (eofPosition (parse source)).offset =
      (RawNode.printList ch.dropLast).length := by
    rw [hpos, advanceText_offset]
    simp [startPosition]
  have htake : source.take (RawNode.printList ch.dropLast).length =
      RawNode.printList ch.dropLast := by
    conv_lhs => rw [← hcat]
    exact List.take_left _ _
  have hagree : getLineAndColumn source (eofPosition (parse source)).offset =
      ((eofPosition (parse source)).line, (eofPosition (parse source)).column) := by
    rw [hoff, getLineAndColumn, htake, hpos, startPosition_advance_line,
      startPosition_advance_column]
  exact ⟨hagree, by rw [dumpEOFSourceLoc, if_neg (not_not_intro hagree)]⟩

theorem decodeTrivia_encode (p : TriviaPiece) :
    decodeTrivia (encodeTrivia p) = some p := by
  cases p <;> rfl

theorem decodeTriviaList_encode (ps : List TriviaPiece) :
    decodeTriviaList (ps.map encodeTrivia) = some ps := by
  induction ps with
  | nil => rfl
  | cons p ps ih =>
    simp only [List.map_cons, decodeTriviaList, decodeTrivia_encode p, ih]

mutual

/-- Deserializing the serialization of any raw node restores it exactly. -/
theorem deserializeNode_serialize :
    ∀ n : RawNode, deserializeNode (serializeNode n) = some n
  | .token k lead text trail => by
    simp only [serializeNode, deserializeNode, decodeTriviaList_encode]
  | .layout k children => by
    simp only [serializeNode, deserializeNode, deserializeList_serialize children]
  | .missing k => rfl

/-- Deserializing the serialization of a child list restores it exactly. -/
theorem deserializeList_serialize :
    ∀ ns : List RawNode, deserializeList (serializeList ns) = some ns
  | [] => rfl
  | n :: ns => by
    simp only [serializeList, deserializeList, deserializeNode_serialize n,
      deserializeList_serialize ns]

end

/-- C3: deserializing the serialized interchange document of any tree
yields a tree printing byte-identical output, and the serialize-raw-tree
action followed by the deserialize-raw-tree action on its output
reproduces the original source bytes. -/
theorem c3_interchange_round_trip :
    (∀ t : RawNode,
        (deserializeNode (serializeNode t)).map RawNode.print = some t.print) ∧
      ∀ source : List Char,
        doDeserializeRawTree (doSerializeRawTree source) =
          some (source, EXIT_SUCCESS) := by
  constructor
  · intro t
    rw [deserializeNode_serialize t, Option.map_some']
  · intro source
    rw [doDeserializeRawTree, doSerializeRawTree, deserializeNode_serialize,
      Option.map_some', parse_print]

theorem insertedBefore_nil (o : Nat) : insertedBefore [] o = 0 := rfl

theorem deletedBefore_nil (o : Nat) : deletedBefore [] o = 0 := rfl

theorem newPos_nil (o : Nat) : newPos [] o = o := rfl

theorem insertedBefore_cons (e : Edit) (rest : List Edit) (o : Nat) :
    insertedBefore (e :: rest) o =
      (if e.endOff ≤ o then e.replacement.length else 0) + insertedBefore rest o := by
  by_cases h : e.endOff ≤ o <;>
    simp [insertedBefore, List.filter_cons, h]

theorem deletedBefore_cons (e : Edit) (rest : List Edit) (o : Nat) :
    deletedBefore (e :: rest) o =
      (if e.endOff ≤ o then e.endOff - e.start else 0) + deletedBefore rest o := by
  by_cases h : e.endOff ≤ o <;>
    simp [deletedBefore, List.filter_cons, h]

theorem insertedBefore_eq_zero (edits : List Edit) (o : Nat)
    (h : ∀ e ∈ edits, ¬ e.endOff ≤ o) : insertedBefore edits o = 0 := by
  simp only [insertedBefore]
  rw [List.filter_eq_nil_iff.mpr (by simpa using h)]
  rfl

theorem deletedBefore_eq_zero (edits : List Edit) (o : Nat)
    (h : ∀ e ∈ edits, ¬ e.endOff ≤ o) : deletedBefore edits o = 0 := by
  simp only [deletedBefore]
  rw [List.filter_eq_nil_iff.mpr (by simpa using h)]
  rfl

/-- Deleted length counted before `o` is bounded by the room between the
lower bound `B` of all edit starts and `o`: the deleted intervals are
disjoint sub-intervals of `[B, o)`. -/
theorem deletedBefore_le (edits : List Edit) (o B : Nat)
    (hord : editsOrdered edits)
    (hwf : ∀ e ∈ edits, e.start ≤ e.endOff)
    (hlb : ∀ e ∈ edits, B ≤ e.start) :
    deletedBefore edits o ≤ o - B := by
  induction edits generalizing B with
  | nil => simp [deletedBefore_nil]
  | cons e rest ih =>
    have hord' : editsOrdered rest := hord.tail
    have hlbr : ∀ e' ∈ rest, e.endOff ≤ e'.start := by
      intro e' he'
      exact List.rel_of_pairwise_cons hord he'
    have hrest := ih e.endOff hord'
      (fun e' he' => hwf e' (List.mem_cons_of_mem _ he')) hlbr
    have hwe := hwf e (by simp)
    have hbe := hlb e (by simp)
    rw [deletedBefore_cons]
    by_cases h : e.endOff ≤ o
    · rw [if_pos h]
      omega
    · rw [if_neg h]
      omega

theorem extract_append_inner (w z : List Char) (i j : Nat) :
    extract (w ++ z) (w.length + i) (w.length + j) = extract z i j := by
  simp only [extract, Nat.add_sub_add_left]
  congr 1
  rw [List.drop_append_eq_append_drop, List.drop_of_length_le (by omega),
    List.nil_append]
  congr 1
  omega

theorem extract_drop (s : List Char) (k i j : Nat) :
    extract (s.drop k) i j = extract s (k + i) (k + j) := by
  simp only [extract, List.drop_drop, Nat.add_sub_add_left]

theorem extract_eq_of_take_eq (t s : List Char) (bnd l h : Nat)
    (hts : t.take bnd = s.take bnd) (hh : h ≤ bnd) :
    extract t l h = extract s l h := by
  have hth : t.take h = s.take h := by
    have hx := congrArg (List.take h) hts
    rwa [List.take_take, List.take_take, Nat.min_eq_left hh] at hx
  simp only [extract]
  rw [List.take_drop, List.take_drop]
  by_cases hc : l ≤ h
  · rw [Nat.add_sub_cancel' hc, hth]
  · have h0 : h - l = 0 := by omega
    rw [h0, Nat.add_zero]
    rw [List.drop_of_length_le (by rw [List.length_take]; omega),
      List.drop_of_length_le (by rw [List.length_take]; omega)]

theorem take_min_length (s : List Char) (n : Nat) :
    (s.take n).length = min n s.length := by
  simp

/-- Applying edits that all start at or after `B` leaves the first `B`
bytes of the buffer unchanged. -/
theorem applyEdits_take (s : List Char) (edits : List Edit) (B : Nat)
    (hlb : ∀ e ∈ edits, B ≤ e.start) (hB : B ≤ s.length) :
    (applyEdits s edits).take B = s.take B := by
  induction edits with
  | nil => rfl
  | cons e rest ih =>
    have ihr := ih (fun e' he' => hlb e' (List.mem_cons_of_mem _ he'))
    have hBe : B ≤ e.start := hlb e (by simp)
    have hBlen : B ≤ (applyEdits s rest).length := by
      have hy := congrArg List.length ihr
      simp only [take_min_length] at hy
      omega
    show (applyEdit (applyEdits s rest) e).take B = s.take B
    rw [applyEdit, List.append_assoc, List.take_append_eq_append_take]
    have h1 : ((applyEdits s rest).take e.start).take B = (applyEdits s rest).take B := by
      rw [List.take_take, Nat.min_eq_left hBe]
    have h2 : B - ((applyEdits s rest).take e.start).length = 0 := by
      rw [take_min_length]
      omega
    rw [h1, h2, List.take_zero, List.append_nil, ihr]

theorem editLandings_bounds (edits : List Edit) (B : Nat)
    (hord : editsOrdered edits) (hlb : ∀ e ∈ edits, B ≤ e.start) :
    ∀ r ∈ editLandings edits, B ≤ r.1 ∧ r.1 ≤ r.2 := by
  induction edits generalizing B with
  | nil => simp [editLandings]
  | cons e rest ih =>
    intro r hr
    simp only [editLandings, List.mem_cons] at hr
    rcases hr with rfl | hr
    · exact ⟨hlb e (by simp), by omega⟩
    · obtain ⟨r₀, hr₀, rfl⟩ := List.mem_map.mp hr
      have hre : ∀ e' ∈ rest, e.endOff ≤ e'.start :=
        fun e' he' => List.rel_of_pairwise_cons hord he'
      have hb := ih e.endOff hord.tail hre r₀ hr₀
      have hBe := hlb e (by simp)
      exact ⟨by simp only [shiftPos]; omega, by simp only [shiftPos]; omega⟩

/-- Transport of untouched old ranges: the bytes of the edited buffer in
the translated range equal the old bytes, and no replacement text lands
inside the translated range. -/
theorem reuse_transport (S : List Char) (edits : List Edit) (l h : Nat)
    (hord : editsOrdered edits)
    (hwf : ∀ e ∈ edits, e.start ≤ e.endOff ∧ e.endOff ≤ S.length)
    (hunt : ∀ e ∈ edits, h ≤ e.start ∨ e.endOff ≤ l)
    (hlh : l < h) (hh : h ≤ S.length) :
    extract (applyEdits S edits) (newPos edits l) (newPos edits l + (h - l)) =
      extract S l h ∧
    ∀ r ∈ editLandings edits,
      r.2 ≤ newPos edits l ∨ newPos edits l + (h - l) ≤ r.1 := by
  induction edits with
  | nil =>
    refine ⟨?_, by simp [editLandings]⟩
    show extract S (newPos [] l) (newPos [] l + (h - l)) = extract S l h
    rw [newPos_nil, Nat.add_sub_cancel' (Nat.le_of_lt hlh)]
  | cons e rest ih =>
    have hordr : editsOrdered rest := hord.tail
    have hre : ∀ e' ∈ rest, e.endOff ≤ e'.start :=
      fun e' he' => List.rel_of_pairwise_cons hord he'
    have hwfr : ∀ e' ∈ rest, e'.start ≤ e'.endOff ∧ e'.endOff ≤ S.length :=
      fun e' he' => hwf e' (List.mem_cons_of_mem _ he')
    have huntr : ∀ e' ∈ rest, h ≤ e'.start ∨ e'.endOff ≤ l :=
      fun e' he' => hunt e' (List.mem_cons_of_mem _ he')
    have hwe := hwf e (by simp)
    obtain ⟨ihx, ihl⟩ := ih hordr hwfr huntr
    by_cases hca : e.endOff ≤ l
    · have hdelr : deletedBefore rest l ≤ l - e.endOff :=
        deletedBefore_le rest l e.endOff hordr (fun e' he' => (hwfr e' he').1) hre
      have hp₁ : e.endOff ≤ newPos rest l := by
        rw [newPos]
        omega
      have hstart_le : e.start ≤ (applyEdits S rest).length := by
        have htk := applyEdits_take S rest e.start
          (fun e' he' => le_trans hwe.1 (hre e' he'))
          (le_trans hwe.1 hwe.2)
        have hy := congrArg List.length htk
        simp only [take_min_length] at hy
        omega
      have hWlen : ((applyEdits S rest).take e.start ++ e.replacement).length =
          e.start + e.replacement.length := by
        rw [List.length_append, take_min_length, Nat.min_eq_left hstart_le]
      have hnew : newPos (e :: rest) l =
          (e.start + e.replacement.length) + (newPos rest l - e.endOff) := by
        simp only [newPos, insertedBefore_cons, deletedBefore_cons, if_pos hca]
        omega
      constructor
      · show extract (applyEdit (applyEdits S rest) e) _ _ = _
        rw [applyEdit, hnew]
        rw [show (e.start + e.replacement.length) + (newPos rest l - e.endOff) + (h - l)
            = (e.start + e.replacement.length) + ((newPos rest l - e.endOff) + (h - l))
          from by omega]
        rw [← hWlen, extract_append_inner, extract_drop]
        rw [show e.endOff + (newPos rest l - e.endOff) = newPos rest l from by omega]
        rw [show e.endOff + ((newPos rest l - e.endOff) + (h - l))
            = newPos rest l + (h - l) from by omega]
        exact ihx
      · intro r hr
        simp only [editLandings, List.mem_cons] at hr
        rcases hr with rfl | hr
        · left
          rw [hnew]
          omega
        · obtain ⟨r₀, hr₀, rfl⟩ := List.mem_map.mp hr
          have hb := editLandings_bounds rest e.endOff hordr hre r₀ hr₀
          rcases ihl r₀ hr₀ with hcase | hcase
          · left
            simp only [shiftPos]
            rw [hnew]
            omega
          · right
            simp only [shiftPos]
            rw [hnew]
            omega
    · have hhs : h ≤ e.start := (hunt e (by simp)).resolve_right hca
      have hall : ∀ e' ∈ (e :: rest), h ≤ e'.start := by
        intro e' he'
        rcases List.mem_cons.mp he' with rfl | he'
        · exact hhs
        · exact le_trans (le_trans hhs hwe.1) (hre e' he')
      have hfz : ∀ e' ∈ (e :: rest), ¬ e'.endOff ≤ l := by
        intro e' he'
        have h1 := hall e' he'
        have hse := (hwf e' he').1
        omega
      have hzi := insertedBefore_eq_zero _ l hfz
      have hzd := deletedBefore_eq_zero _ l hfz
      have hnew : newPos (e :: rest) l = l := by
        rw [newPos, hzi, hzd]
        omega
      have htk : (applyEdits S (e :: rest)).take h = S.take h :=
        applyEdits_take S (e :: rest) h hall hh
      constructor
      · rw [hnew, Nat.add_sub_cancel' (Nat.le_of_lt hlh)]
        exact extract_eq_of_take_eq _ _ h l h htk (le_refl h)
      · intro r hr
        right
        rw [hnew, Nat.add_sub_cancel' (Nat.le_of_lt hlh)]
        exact le_trans hhs (editLandings_bounds (e :: rest) e.start hord
          (fun e' he' => by
            rcases List.mem_cons.mp he' with rfl | he'
            · exact le_refl _
            · exact le_trans hwe.1 (hre e' he')) r hr).1

theorem rangeUntouched_forall (edits : List Edit) (lo hi : Nat)
    (h : rangeUntouched edits lo hi = true) :
    ∀ e ∈ edits, hi ≤ e.start ∨ e.endOff ≤ lo := by
  intro e he
  have := List.all_eq_true.mp h e he
  simpa [Edit.untouches] using this

mutual

theorem collectReuseOld_mem (edits : List Edit) :
    ∀ (n : RawNode) (lo : Nat) (r : Nat × Nat), r ∈ collectReuseOld edits lo n →
      lo ≤ r.1 ∧ r.1 < r.2 ∧ r.2 ≤ lo + n.width ∧
        rangeUntouched edits r.1 r.2 = true
  | .token k lead text trail, lo, r, hr => by
    rw [collectReuseOld] at hr
    split at hr
    · next hcond =>
      simp only [List.mem_singleton] at hr
      subst hr
      simp only [Bool.and_eq_true, decide_eq_true_eq] at hcond
      exact ⟨le_refl _, by omega, le_refl _, hcond.1⟩
    · simp at hr
  | .layout k children, lo, r, hr => by
    rw [collectReuseOld] at hr
    split at hr
    · next hcond =>
      simp only [List.mem_singleton] at hr
      subst hr
      simp only [Bool.and_eq_true, decide_eq_true_eq] at hcond
      exact ⟨le_refl _, by omega, le_refl _, hcond.1⟩
    · next hcond =>
      have h := collectReuseOldList_mem edits children lo r hr
      refine ⟨h.1, h.2.1, ?_, h.2.2.2⟩
      have hx := h.2.2.1
      simp only [RawNode.width]
      omega
  | .missing k, lo, r, hr => by
    simp [collectReuseOld] at hr

theorem collectReuseOldList_mem (edits : List Edit) :
    ∀ (ns : List RawNode) (lo : Nat) (r : Nat × Nat),
      r ∈ collectReuseOldList edits lo ns →
      lo ≤ r.1 ∧ r.1 < r.2 ∧ r.2 ≤ lo + RawNode.widthList ns ∧
        rangeUntouched edits r.1 r.2 = true
  | [], lo, r, hr => by
    simp [collectReuseOldList] at hr
  | n :: ns, lo, r, hr => by
    rw [collectReuseOldList] at hr
    rcases List.mem_append.mp hr with hr | hr
    · have h := collectReuseOld_mem edits n lo r hr
      refine ⟨h.1, h.2.1, ?_, h.2.2.2⟩
      have hx := h.2.2.1
      simp only [RawNode.widthList]
      omega
    · have h := collectReuseOldList_mem edits ns (lo + n.width) r hr
      refine ⟨by
        have hx := h.1
        omega, h.2.1, ?_, h.2.2.2⟩
      have hx := h.2.2.1
      simp only [RawNode.widthList]
      omega

end

mutual

theorem collectReuseOld_pairwise (edits : List Edit) :
    ∀ (n : RawNode) (lo : Nat),
      List.Pairwise (fun r r' : Nat × Nat => r.2 ≤ r'.1) (collectReuseOld edits lo n)
  | .token k lead text trail, lo => by
    rw [collectReuseOld]
    split
    · simp
    · simp
  | .layout k children, lo => by
    rw [collectReuseOld]
    split
    · simp
    · exact collectReuseOldList_pairwise edits children lo
  | .missing _, lo => by simp [collectReuseOld]

theorem collectReuseOldList_pairwise (edits : List Edit) :
    ∀ (ns : List RawNode) (lo : Nat),
      List.Pairwise (fun r r' : Nat × Nat => r.2 ≤ r'.1) (collectReuseOldList edits lo ns)
  | [], lo => by simp [collectReuseOldList]
  | n :: ns, lo => by
    rw [collectReuseOldList, List.pairwise_append]
    refine ⟨collectReuseOld_pairwise edits n lo,
      collectReuseOldList_pairwise edits ns (lo + n.width), ?_⟩
    intro a ha b hb
    have h1 := collectReuseOld_mem edits n lo a ha
    have h2 := collectReuseOldList_mem edits ns (lo + n.width) b hb
    have hx1 := h1.2.2.1
    have hx2 := h2.1
    omega

end

/-- Ordering of translated positions: for two untouched old ranges in
order, the translated end of the first is at most the translated start of
the second. -/
theorem newPos_pair (l l' : Nat) :
    ∀ (edits : List Edit) (h : Nat), editsOrdered edits →
      (∀ e ∈ edits, e.start ≤ e.endOff) →
      (∀ e ∈ edits, h ≤ e.start ∨ e.endOff ≤ l) →
      l ≤ h → h ≤ l' →
      newPos edits l + (h - l) ≤ newPos edits l'
  | [], h, _, _, _, hlh, hhl' => by
    simp only [newPos_nil]
    omega
  | e :: rest, h, hord, hwf, hunt, hlh, hhl' => by
    have hordr : editsOrdered rest := hord.tail
    have hre : ∀ e' ∈ rest, e.endOff ≤ e'.start :=
      fun e' he' => List.rel_of_pairwise_cons hord he'
    have hwfr : ∀ e' ∈ rest, e'.start ≤ e'.endOff :=
      fun e' he' => hwf e' (List.mem_cons_of_mem _ he')
    have hwe := hwf e (by simp)
    by_cases hc1 : e.endOff ≤ l
    · have hc2 : e.endOff ≤ l' := le_trans hc1 (le_trans hlh hhl')
      have hih := newPos_pair l l' rest h hordr hwfr
        (fun e' he' => hunt e' (List.mem_cons_of_mem _ he')) hlh hhl'
      have hdl : deletedBefore rest l ≤ l - e.endOff :=
        deletedBefore_le rest l e.endOff hordr hwfr hre
      have hdl' : deletedBefore rest l' ≤ l' - e.endOff :=
        deletedBefore_le rest l' e.endOff hordr hwfr hre
      simp only [newPos] at hih ⊢
      simp only [insertedBefore_cons, deletedBefore_cons, if_pos hc1, if_pos hc2]
      omega
    · by_cases hc2 : e.endOff ≤ l'
      · have hhs : h ≤ e.start := (hunt e (by simp)).resolve_right hc1
        have hih := newPos_pair l l' rest e.endOff hordr hwfr
          (fun e' he' => Or.inl (hre e' he')) (by omega) hc2
        have hdl : deletedBefore rest l ≤ l :=
          deletedBefore_le rest l 0 hordr hwfr (fun _ _ => Nat.zero_le _)
        have hdl' : deletedBefore rest l' ≤ l' - e.endOff :=
          deletedBefore_le rest l' e.endOff hordr hwfr hre
        simp only [newPos] at hih ⊢
        simp only [insertedBefore_cons, deletedBefore_cons, if_neg hc1, if_pos hc2]
        omega
      · have hz : ∀ e' ∈ (e :: rest), ¬ e'.endOff ≤ l' := by
          intro e' he'
          rcases List.mem_cons.mp he' with rfl | he'
          · exact hc2
          · have h1 := hre e' he'
            have h2 := hwfr e' he'
            omega
        have hzl : ∀ e' ∈ (e :: rest), ¬ e'.endOff ≤ l := by
          intro e' he'
          have := hz e' he'
          omega
        simp only [newPos, insertedBefore_eq_zero _ _ hzl, deletedBefore_eq_zero _ _ hzl,
          insertedBefore_eq_zero _ _ hz, deletedBefore_eq_zero _ _ hz]
        omega

/-- C5: for every old tree printing old source S, ordered well-formed edit
sequence producing new source S', and every reuse range [a,b) returned by
the parsing cache, the range is the delta-translation of an untouched old
range, the bytes of S' in [a,b) equal the bytes of S in that old range,
and no byte touched by any edit (no replacement-text landing) falls inside
[a,b). -/
theorem c5_reuse_soundness (S : List Char) (edits : List Edit) (t : RawNode)
    (hord : editsOrdered edits)
    (hwf : ∀ e ∈ edits, e.start ≤ e.endOff ∧ e.endOff ≤ S.length)
    (hprint : t.print = S)
    (r : Nat × Nat) (hr : r ∈ (ParsingCache.mk t edits).getReusedRanges) :
    ∃ l h : Nat, r = (newPos edits l, newPos edits l + (h - l)) ∧
      rangeUntouched edits l h = true ∧
      extract (applyEdits S edits) r.1 r.2 = extract S l h ∧
      ∀ lr ∈ editLandings edits, lr.2 ≤ r.1 ∨ r.2 ≤ lr.1 := by
  simp only [ParsingCache.getReusedRanges] at hr
  obtain ⟨r₀, hr₀, rfl⟩ := List.mem_map.mp hr
  have hm := collectReuseOld_mem edits t 0 r₀ hr₀
  have hw : t.width = S.length := by
    rw [RawNode.width_eq_print_length, hprint]
  have hunt := rangeUntouched_forall edits r₀.1 r₀.2 hm.2.2.2
  have hle : r₀.2 ≤ S.length := by
    have := hm.2.2.1
    omega
  have htr := reuse_transport S edits r₀.1 r₀.2 hord hwf hunt hm.2.1 hle
  exact ⟨r₀.1, r₀.2, rfl, hm.2.2.2, htr.1, htr.2⟩

/-- C6: the reuse ranges returned by the parsing cache are pairwise
non-overlapping, sorted by increasing start offset, and each non-empty. -/
theorem c6_reuse_ranges_ordered (t : RawNode) (edits : List Edit)
    (hord : editsOrdered edits)
    (hwf : ∀ e ∈ edits, e.start ≤ e.endOff) :
    List.Pairwise (fun r r' : Nat × Nat => r.2 ≤ r'.1)
      ((ParsingCache.mk t edits).getReusedRanges) ∧
      ∀ r ∈ (ParsingCache.mk t edits).getReusedRanges, r.1 < r.2 := by
  constructor
  · simp only [ParsingCache.getReusedRanges]
    rw [List.pairwise_map]
    apply List.Pairwise.imp_of_mem ?_ (collectReuseOld_pairwise edits t 0)
    intro a b ha hb hab
    have hma := collectReuseOld_mem edits t 0 a ha
    have hunta := rangeUntouched_forall edits a.1 a.2 hma.2.2.2
    exact newPos_pair a.1 b.1 edits a.2 hord hwf hunta (le_of_lt hma.2.1) hab
  · intro r hr
    simp only [ParsingCache.getReusedRanges] at hr
    obtain ⟨r₀, hr₀, rfl⟩ := List.mem_map.mp hr
    have hm := collectReuseOld_mem edits t 0 r₀ hr₀
    have := hm.2.1
    simp only []
    omega

/-- Witness for C5: old source "a b", edit replacing "b" (bytes [2,3))
with "cc"; the cache reports the reuse range [0,2), whose bytes "a " are
unchanged. -/
theorem c5_witness :
    ∃ l h : Nat,
      ((0, 2) : Nat × Nat) =
        (newPos [⟨2, 3, ['c', 'c']⟩] l, newPos [⟨2, 3, ['c', 'c']⟩] l + (h - l)) ∧
      rangeUntouched [⟨2, 3, ['c', 'c']⟩] l h = true ∧
      extract (applyEdits ['a', ' ', 'b'] [⟨2, 3, ['c', 'c']⟩])
          ((0, 2) : Nat × Nat).1 ((0, 2) : Nat × Nat).2 =
        extract ['a', ' ', 'b'] l h ∧
      ∀ lr ∈ editLandings [⟨2, 3, ['c', 'c']⟩],
        lr.2 ≤ ((0, 2) : Nat × Nat).1 ∨ ((0, 2) : Nat × Nat).2 ≤ lr.1 :=
  c5_reuse_soundness ['a', ' ', 'b'] [⟨2, 3, ['c', 'c']⟩] (parse ['a', ' ', 'b'])
    (by simp [editsOrdered]) (by decide) (parse_print _) (0, 2) (by decide)

/-- Witness for C6 at the same old tree and edit. -/
theorem c6_witness :
    List.Pairwise (fun r r' : Nat × Nat => r.2 ≤ r'.1)
      ((ParsingCache.mk (parse ['a', ' ', 'b']) [⟨2, 3, ['c', 'c']⟩]).getReusedRanges) ∧
      ∀ r ∈ (ParsingCache.mk (parse ['a', ' ', 'b'])
          [⟨2, 3, ['c', 'c']⟩]).getReusedRanges, r.1 < r.2 :=
  c6_reuse_ranges_ordered (parse ['a', ' ', 'b']) [⟨2, 3, ['c', 'c']⟩]
    (by simp [editsOrdered]) (by decide)

/-- Counterexample to C7: with a valid old syntax tree and the malformed
edit argument "garbage", the action aborts with the invalid-pattern error
instead of degrading to a full reparse: no parse result is produced. -/
theorem c7_counterexample :
    matchEditPattern ("garbage".toList) = none ∧
    parseFile (some (serializeNode (parse ['a']))) [("garbage".toList)] ['a'] =
      Except.error ("Invalid edit pattern".toList) ∧
    ∀ res : RawNode × Option ParsingCache,
      parseFile (some (serializeNode (parse ['a']))) [("garbage".toList)] ['a'] ≠
        Except.ok res := by
  refine ⟨rfl, rfl, ?_⟩
  intro res h
  rw [show parseFile (some (serializeNode (parse ['a']))) [("garbage".toList)] ['a'] =
      Except.error ("Invalid edit pattern".toList) from rfl] at h
  exact Except.noConfusion h

/-- C7 (amended): when an edit argument does not match the expected
textual form, the driver reports the invalid pattern and the file's action
aborts with a failure exit, performing no reparse at all. -/
theorem c7_malformed_edit_aborts (doc : Doc) (t : RawNode)
    (patterns : List (List Char)) (source : List Char)
    (hdoc : deserializeNode doc = some t)
    (hbad : parseIncrementalEditArguments source patterns = none) :
    parseFile (some doc) patterns source =
      Except.error ("Invalid edit pattern".toList) := by
  rw [parseFile, hdoc, hbad]

/-- Witness for the amended C7 at the concrete malformed argument. -/
theorem c7_witness :
    parseFile (some (serializeNode (parse ['a']))) [("garbage".toList)] ['a'] =
      Except.error ("Invalid edit pattern".toList) :=
  c7_malformed_edit_aborts (serializeNode (parse ['a'])) (parse ['a'])
    [("garbage".toList)] ['a'] (deserializeNode_serialize _) rfl

/-- Counterexample to C8: the deserialize-raw-tree action performs no
check on the decoded document: on an undecodable document (unknown trivia
tag 9) it produces no result at all — in particular no failure exit — the
C++ dereferences the empty optional unconditionally. -/
theorem c8_counterexample :
    deserializeNode (Doc.tokenRec 0 [(9, 0, [])] [] []) = none ∧
    doDeserializeRawTree (Doc.tokenRec 0 [(9, 0, [])] [] []) = none := by
  exact ⟨rfl, rfl⟩

/-- C8 (amended): when an interchange document fails to decode while
loading an old syntax tree for incremental parsing, the failure is
reported and the file's action aborts with a failure result and no
partial tree is used; the deserialize-raw-tree action, by contrast,
performs no such check: on an undecodable document it has no defined
result, and whenever it does return, its exit status is success. -/
theorem c8_malformed_document (doc : Doc) (patterns : List (List Char))
    (source : List Char) (hbad : deserializeNode doc = none) :
    parseFile (some doc) patterns source =
      Except.error ("Could not deserialise old syntax tree.".toList) ∧
    doDeserializeRawTree doc = none ∧
    ∀ (doc' : Doc) (out : List Char × Nat),
      doDeserializeRawTree doc' = some out → out.2 = EXIT_SUCCESS := by
  refine ⟨by rw [parseFile, hbad], by rw [doDeserializeRawTree, hbad]; rfl, ?_⟩
  intro doc' out hout
  rw [doDeserializeRawTree] at hout
  cases hdes : deserializeNode doc' with
  | none => rw [hdes] at hout; exact Option.noConfusion hout
  | some t =>
    rw [hdes, Option.map_some'] at hout
    have := Option.some.inj hout
    rw [← this]

/-- Witness for the amended C8 at the concrete undecodable document. -/
theorem c8_witness :
    parseFile (some (Doc.tokenRec 0 [(9, 0, [])] [] [])) [] ['a'] =
      Except.error ("Could not deserialise old syntax tree.".toList) ∧
    doDeserializeRawTree (Doc.tokenRec 0 [(9, 0, [])] [] []) = none ∧
    ∀ (doc' : Doc) (out : List Char × Nat),
      doDeserializeRawTree doc' = some out → out.2 = EXIT_SUCCESS :=
  c8_malformed_document (Doc.tokenRec 0 [(9, 0, [])] [] []) [] ['a'] rfl

/-- Counterexample to C9: in a batch where the first file is unreadable
(its action fails) and the second succeeds, the process exits with
success: the earlier failure is overwritten. -/
theorem c9_counterexample :
    doFullLexRoundTripFile none = EXIT_FAILURE ∧
    mainBatch [none, some []] = EXIT_SUCCESS := ⟨rfl, rfl⟩

/-- C9 (amended): for a single input file the process exit status is
exactly the action's exit code, but in a batch run the exit status is only
the exit code of the action on the last processed file (success for an
empty batch): the batch does continue past per-file failures, and earlier
failures are overwritten rather than reflected in the exit status. -/
theorem c9_exit_status (files : List (Option (List Char))) :
    mainBatch files = (files.map doFullLexRoundTripFile).getLastD EXIT_SUCCESS ∧
    ∀ file : Option (List Char), mainSingle file = doFullLexRoundTripFile file := by
  constructor
  · have hgen : ∀ (l : List (Option (List Char))) (init : Nat),
        l.foldl (fun _ f => doFullLexRoundTripFile f) init =
          (l.map doFullLexRoundTripFile).getLastD init := by
      intro l
      induction l with
      | nil => intro init; rfl
      | cons f fs ih =>
        intro init
        rw [List.foldl_cons, ih, List.map_cons, List.getLastD_cons]
    exact hgen files EXIT_SUCCESS
  · intro file
    rfl

theorem printReparsedRegion_eq_claimGap (S : List Char) (a b : Nat)
    (hab : a ≤ b) (hbS : b ≤ S.length) :
    printReparsedRegion S a b = claimGap S a b := by
  by_cases h : b = a
  · subst h
    rw [printReparsedRegion, if_neg (by omega), claimGap,
      if_pos (by rw [Nat.sub_self]; rfl)]
  · have husub : usub32 b a = b - a := by rw [usub32, if_pos hab]
    have hg : (S.drop a).take (b - a) ≠ [] := by
      intro hnil
      have hlen := congrArg List.length hnil
      simp only [List.length_take, List.length_drop, List.length_nil] at hlen
      omega
    rw [printReparsedRegion, if_pos h, husub, claimGap, if_neg hg]

theorem renderVisualAux_eq_claim (S : List Char) :
    ∀ (ranges : List (Nat × Nat)) (cur : Nat), cur ≤ S.length →
      List.Chain' (fun r r' : Nat × Nat => r.2 ≤ r'.1) ranges →
      (∀ r ∈ ranges, r.1 ≤ r.2 ∧ r.2 ≤ S.length) →
      (∀ r ∈ ranges.take 1, cur ≤ r.1) →
      renderVisualAux S cur ranges = claimVisualAux S cur ranges
  | [], cur, hcur, _, _, _ => by
    rw [renderVisualAux, claimVisualAux,
      printReparsedRegion_eq_claimGap S cur S.length hcur (le_refl _)]
  | r :: rs, cur, hcur, hchain, hwf, hhd => by
    have hwr := hwf r (by simp)
    have hcr : cur ≤ r.1 := hhd r (by simp)
    have husub : usub32 r.2 r.1 = r.2 - r.1 := by
      rw [usub32, if_pos hwr.1]
    have hrec := renderVisualAux_eq_claim S rs r.2 hwr.2 hchain.tail
      (fun r' hr' => hwf r' (List.mem_cons_of_mem _ hr'))
      (by
        cases rs with
        | nil => simp
        | cons r' rs' =>
          intro x hx
          simp only [List.take, List.mem_singleton] at hx
          subst hx
          exact (List.chain'_cons.mp hchain).1)
    rw [renderVisualAux, claimVisualAux, husub, hrec,
      printReparsedRegion_eq_claimGap S cur r.1 hcr (le_trans hwr.1 hwr.2)]

theorem visualBytesAux_eq_drop (S : List Char) :
    ∀ (ranges : List (Nat × Nat)) (cur : Nat), cur ≤ S.length →
      List.Chain' (fun r r' : Nat × Nat => r.2 ≤ r'.1) ranges →
      (∀ r ∈ ranges, r.1 ≤ r.2 ∧ r.2 ≤ S.length) →
      (∀ r ∈ ranges.take 1, cur ≤ r.1) →
      visualBytesAux S cur ranges = S.drop cur
  | [], cur, hcur, _, _, _ => by
    rw [visualBytesAux]
    have : S.length - cur = (S.drop cur).length := by simp
    rw [this, List.take_length]
  | r :: rs, cur, hcur, hchain, hwf, hhd => by
    have hwr := hwf r (by simp)
    have hcr : cur ≤ r.1 := hhd r (by simp)
    have hrec := visualBytesAux_eq_drop S rs r.2 hwr.2 hchain.tail
      (fun r' hr' => hwf r' (List.mem_cons_of_mem _ hr'))
      (by
        cases rs with
        | nil => simp
        | cons r' rs' =>
          intro x hx
          simp only [List.take, List.mem_singleton] at hx
          subst hx
          exact (List.chain'_cons.mp hchain).1)
    rw [visualBytesAux, hrec]
    have h1 : S.drop r.2 = (S.drop r.1).drop (r.2 - r.1) := by
      rw [List.drop_drop]
      congr 1
      omega
    have h2 : (S.drop r.1).take (r.2 - r.1) ++ S.drop r.2 = S.drop r.1 := by
      rw [h1, List.take_append_drop]
    have h3 : S.drop r.1 = (S.drop cur).drop (r.1 - cur) := by
      rw [List.drop_drop]
      congr 1
      omega
    rw [List.append_assoc, h2, h3, List.take_append_drop]

/-- Counterexample to C10: the single reuse range [4,5) is sorted and
non-overlapping, yet on the two-byte source "ab" the rendering wraps an
empty final gap in reparse markers (the unsigned length underflows and the
marker condition compares raw offsets), so the output is not the
rendering the claim describes. -/
theorem c10_counterexample :
    List.Chain' (fun r r' : Nat × Nat => r.2 ≤ r'.1) [((4, 5) : Nat × Nat)] ∧
    (4 : Nat) ≤ 5 ∧
    printVisualNodeReuseInformation ['a', 'b'] [(4, 5)] ≠
      claimVisual ['a', 'b'] [(4, 5)] := by
  refine ⟨by simp, by omega, by decide⟩

/-- C10 (amended): given reuse ranges that are sorted, pairwise
non-overlapping and each within the buffer, the visual reuse rendering is
exactly the rendering the claim describes — reused spans verbatim, every
maximal gap wrapped in reparse markers precisely when non-empty — and its
marker-free byte content is the entire new source, every byte exactly once
and in order. -/
theorem c10_visual_rendering (S : List Char) (ranges : List (Nat × Nat))
    (hchain : List.Chain' (fun r r' : Nat × Nat => r.2 ≤ r'.1) ranges)
    (hwf : ∀ r ∈ ranges, r.1 ≤ r.2 ∧ r.2 ≤ S.length) :
    printVisualNodeReuseInformation S ranges = claimVisual S ranges ∧
    visualBytes S ranges = S := by
  constructor
  · exact renderVisualAux_eq_claim S ranges 0 (Nat.zero_le _) hchain hwf
      (fun r _ => Nat.zero_le _)
  · have h := visualBytesAux_eq_drop S ranges 0 (Nat.zero_le _) hchain hwf
      (fun r _ => Nat.zero_le _)
    rw [visualBytes, h, List.drop_zero]

/-- Witness for the amended C10: source "ab" with ranges [0,1) and [2,2):
the rendering equals the claim-described rendering and covers every byte
once. -/
theorem c10_witness :
    printVisualNodeReuseInformation ['a', 'b'] [(0, 1), (2, 2)] =
      claimVisual ['a', 'b'] [(0, 1), (2, 2)] ∧
    visualBytes ['a', 'b'] [(0, 1), (2, 2)] = ['a', 'b'] :=
  c10_visual_rendering ['a', 'b'] [(0, 1), (2, 2)] (by simp) (by decide)
